import Mathlib

/-!
# Verification of the reclip Edit Decision & Rendering Engine

Shallow embedding of the core of `crates/reclip-core` (files `types.rs`,
`audio.rs`, `editor.rs`, `exporter.rs`).  Machine floating point (`f32`/`f64`)
is modelled by exact rationals (`ℚ`); `usize` arithmetic is modelled by `ℕ`
(Rust's `saturating_sub` is `ℕ` subtraction, and `as usize` on a
non-negative float is `Int.floor` followed by `Int.toNat`, which also
captures the clamp-to-zero behaviour on negative values).  Rust's stable
`sort_by` on `f64` keys is modelled by `List.insertionSort`, which is also a
stable sort, so it produces the same list for every input.
-/

namespace Reclip

/-- `RemovalReason` from `types.rs`. -/
inductive RemovalReason where
  | Filler
  | Repeat
  | Restart
  | MouthNoise
  | LongPause
deriving DecidableEq, Repr

/-- The `Display` impl for `RemovalReason` in `types.rs`. -/
def RemovalReason.toString : RemovalReason → String
  | .Filler => "filler"
  | .Repeat => "repeat"
  | .Restart => "restart"
  | .MouthNoise => "mouth_noise"
  | .LongPause => "long_pause"

/-- `Removal` from `types.rs`.  The field `stop` models the Rust field
`end` (`end` is a Lean keyword). -/
structure Removal where
  start : ℚ
  stop : ℚ
  reason : RemovalReason
  text : String
  confidence : ℚ
deriving DecidableEq, Repr

/-- `Removal::duration` from `types.rs`. -/
def Removal.duration (r : Removal) : ℚ := r.stop - r.start

/-- `AppliedEdit` from `types.rs`.  `original_end` keeps its source name. -/
structure AppliedEdit where
  original_start : ℚ
  original_end : ℚ
  reason : String
  text : String
deriving DecidableEq, Repr

/-- `AudioData` from `audio.rs`: mono samples plus a sample rate. -/
structure AudioData where
  samples : List ℚ
  sample_rate : ℕ
deriving DecidableEq, Repr

/-- `AudioData::duration`: `samples.len() as f64 / sample_rate as f64`. -/
def AudioData.duration (a : AudioData) : ℚ :=
  (a.samples.length : ℚ) / (a.sample_rate : ℚ)

/-- `AudioData::time_to_sample`: `(time_sec * sample_rate as f64) as usize`.
The `as usize` cast truncates toward zero and clamps negatives to `0`,
which on rationals is exactly `Int.toNat ∘ Int.floor` (for negative
products the floor is negative and `toNat` clamps to `0`, matching the
saturating cast). -/
def AudioData.time_to_sample (a : AudioData) (time_sec : ℚ) : ℕ :=
  (Int.floor (time_sec * (a.sample_rate : ℚ))).toNat

/-- `AudioData::sample_to_time`: `sample as f64 / sample_rate as f64`. -/
def AudioData.sample_to_time (a : AudioData) (sample : ℕ) : ℚ :=
  (sample : ℚ) / (a.sample_rate : ℚ)

/-- `EditorConfig` from `editor.rs` (all fields `u32`). -/
structure EditorConfig where
  crossfade_ms : ℕ
  min_removal_ms : ℕ
  merge_gap_ms : ℕ
  zero_crossing_search_ms : ℕ
deriving DecidableEq, Repr

/-- The `Default` impl for `EditorConfig`. -/
def EditorConfig.default : EditorConfig :=
  { crossfade_ms := 30, min_removal_ms := 100, merge_gap_ms := 50,
    zero_crossing_search_ms := 5 }

/-- `EditReport` from `types.rs`. -/
structure EditReport where
  input_path : String
  output_path : String
  original_duration : ℚ
  edited_duration : ℚ
  edits : List AppliedEdit
deriving DecidableEq, Repr

/-! ## `AudioProcessor::find_zero_crossing` (`audio.rs`, lines 419-453) -/

/-- The zero-crossing test `i + 1 < samples.len() && samples[i] * samples[i+1] <= 0.0`
for index `i` of the first scan loop. -/
def isCrossing (s : List ℚ) (i : ℕ) : Prop :=
  i + 1 < s.length ∧ s.getD i 0 * s.getD (i + 1) 0 ≤ 0

instance (s : List ℚ) (i : ℕ) : Decidable (isCrossing s i) := by
  unfold isCrossing; infer_instance

/-- `(i as isize - target as isize).unsigned_abs()`. -/
def zcDist (i target : ℕ) : ℕ := ((i : ℤ) - (target : ℤ)).natAbs

/-- Accumulator of the first scan loop: `best_idx` and `min_dist`, with the
`usize::MAX` sentinel of `min_dist` modelled as `none`. -/
structure ZcAcc where
  best : ℕ
  minDist : Option ℕ
deriving DecidableEq, Repr

/-- One iteration of the first scan loop of `find_zero_crossing`. -/
def zcStep (s : List ℚ) (target : ℕ) (acc : ZcAcc) (i : ℕ) : ZcAcc :=
  if isCrossing s i then
    let d := zcDist i target
    match acc.minDist with
    | none => ⟨i, some d⟩
    | some m => if d < m then ⟨i, some d⟩ else acc
  else acc

/-- One iteration of the fallback loop (smallest `abs` sample), with the
`f32::MAX` sentinel of `min_abs` modelled as `none`. -/
def fbStep (s : List ℚ) (acc : ℕ × Option ℚ) (i : ℕ) : ℕ × Option ℚ :=
  match acc.2 with
  | none => (i, some |s.getD i 0|)
  | some m => if |s.getD i 0| < m then (i, some |s.getD i 0|) else acc

/-- `AudioProcessor::find_zero_crossing`.  `start = target.saturating_sub(range)`
and `end = (target + range).min(len.saturating_sub(1))` are `ℕ` arithmetic;
the scanned index range `start..end` is `List.range' start (end - start)`. -/
def find_zero_crossing (s : List ℚ) (target search : ℕ) : ℕ :=
  let n := s.length
  let start := target - search
  let stop := min (target + search) (n - 1)
  let idxs := List.range' start (stop - start)
  let r := idxs.foldl (zcStep s target) ⟨min target (n - 1), none⟩
  match r.minDist with
  | some _ => r.best
  | none => (idxs.foldl (fbStep s) (r.best, none)).1

/-! ## `AudioProcessor::apply_crossfade` (`audio.rs`, lines 456-481) -/

/-- `AudioProcessor::apply_crossfade`. -/
def apply_crossfade (s1 s2 : List ℚ) (crossfade_samples : ℕ) : List ℚ :=
  if crossfade_samples = 0 ∨ s1 = [] ∨ s2 = [] then s1 ++ s2
  else
    let fade_len := min crossfade_samples (min s1.length s2.length)
    s1.take (s1.length - fade_len) ++
      (List.range fade_len).map (fun i =>
        s1.getD (s1.length - fade_len + i) 0 * (1 - (i : ℚ) / (fade_len : ℚ)) +
        s2.getD i 0 * ((i : ℚ) / (fade_len : ℚ))) ++
      s2.drop fade_len

/-! ## `Editor` (`editor.rs`) -/

/-- The comparison key of every `sort_by(|a, b| a.start.partial_cmp(&b.start))`
call in `editor.rs`. -/
def startLe (a b : Removal) : Prop := a.start ≤ b.start

instance : DecidableRel startLe := fun a b => by unfold startLe; infer_instance

instance : IsTotal Removal startLe := ⟨fun a b => le_total a.start b.start⟩

instance : IsTrans Removal startLe := ⟨fun _ _ _ => le_trans⟩

/-- Rust's stable `slice::sort_by` keyed on `start`, modelled by the (also
stable) insertion sort. -/
def sortByStart (l : List Removal) : List Removal := l.insertionSort startLe

/-- One iteration of the merge loop in `Editor::merge_removals`.  The
accumulator holds the output in reverse order, so its head is the `merged.last_mut()`
of the source.  Note the source assigns `last.end = removal.end` (not a max). -/
def mergeStep (merge_threshold : ℚ) (acc : List Removal) (removal : Removal) :
    List Removal :=
  match acc with
  | [] => [removal]
  | last :: rest =>
    if removal.start - last.stop ≤ merge_threshold then
      { last with
        stop := removal.stop,
        text := last.text ++ " ... " ++ removal.text,
        confidence := min last.confidence removal.confidence } :: rest
    else removal :: last :: rest

/-- `Editor::merge_removals` (`editor.rs`, lines 100-126). -/
def Editor.merge_removals (cfg : EditorConfig) (removals : List Removal) :
    List Removal :=
  match sortByStart removals with
  | [] => []
  | first :: restSorted =>
    (restSorted.foldl (mergeStep ((cfg.merge_gap_ms : ℚ) / 1000)) [first]).reverse

/-- The zero-crossing search radius of `Editor::adjust_to_zero_crossings`:
`(zero_crossing_search_ms as f64 / 1000.0 * sample_rate as f64) as usize`
(truncating cast, like every float-to-`usize` cast). -/
def searchSamplesOf (cfg : EditorConfig) (audio : AudioData) : ℕ :=
  (Int.floor ((cfg.zero_crossing_search_ms : ℚ) / 1000 * (audio.sample_rate : ℚ))).toNat

/-- `Editor::adjust_to_zero_crossings` (`editor.rs`, lines 129-164). -/
def Editor.adjust_to_zero_crossings (cfg : EditorConfig) (audio : AudioData)
    (removals : List Removal) : List (ℕ × ℕ × Removal) :=
  removals.filterMap (fun removal =>
    let start_sample := audio.time_to_sample removal.start
    let end_sample := audio.time_to_sample removal.stop
    let adjusted_start :=
      find_zero_crossing audio.samples start_sample (searchSamplesOf cfg audio)
    let adjusted_end :=
      find_zero_crossing audio.samples end_sample (searchSamplesOf cfg audio)
    if adjusted_start < adjusted_end then some (adjusted_start, adjusted_end, removal)
    else none)

/-- The slice `samples[a..b]` of a `Vec<f32>`, as a total function on lists
(`(drop a).take (b - a)`); the in-bounds theorems below show every slice the
renderer takes satisfies `a ≤ b ≤ len`, where this agrees with Rust. -/
def sliceQ (s : List ℚ) (a b : ℕ) : List ℚ := (s.drop a).take (b - a)

/-- The crossfade length of `Editor::apply_removals`:
`(crossfade_ms as f64 / 1000.0 * sample_rate as f64) as usize`. -/
def crossfadeSamplesOf (cfg : EditorConfig) (audio : AudioData) : ℕ :=
  (Int.floor ((cfg.crossfade_ms : ℚ) / 1000 * (audio.sample_rate : ℚ))).toNat

/-- One iteration of the main loop of `Editor::apply_removals`: push the kept
slice `samples[last_end..start]` when `start > last_end`, record the
`AppliedEdit` with the removal's original `start`/`end`/`reason`/`text`, and
advance `last_end` to the removal's end. -/
def applyStep (audio : AudioData) (acc : List (List ℚ) × List AppliedEdit × ℕ)
    (r : ℕ × ℕ × Removal) : List (List ℚ) × List AppliedEdit × ℕ :=
  let segs :=
    if acc.2.2 < r.1 then acc.1 ++ [sliceQ audio.samples acc.2.2 r.1] else acc.1
  let edits := acc.2.1 ++
    [{ original_start := r.2.2.start, original_end := r.2.2.stop,
       reason := r.2.2.reason.toString, text := r.2.2.text }]
  (segs, edits, r.2.1)

/-- `Editor::apply_removals` (`editor.rs`, lines 167-228).  The loop is a
fold over the plan collecting kept segments, the audit trail and `last_end`;
afterwards the trailing slice is appended and the segments are joined
left-to-right with `apply_crossfade`. -/
def Editor.apply_removals (cfg : EditorConfig) (audio : AudioData)
    (removals : List (ℕ × ℕ × Removal)) : AudioData × List AppliedEdit :=
  if removals = [] then (audio, [])
  else
    let folded := removals.foldl (applyStep audio) ([], [], 0)
    let segments :=
      if folded.2.2 < audio.samples.length then
        folded.1 ++ [audio.samples.drop folded.2.2]
      else folded.1
    match segments with
    | [] => (⟨[], audio.sample_rate⟩, folded.2.1)
    | s0 :: rest =>
      (⟨rest.foldl
          (fun acc seg => apply_crossfade acc seg (crossfadeSamplesOf cfg audio)) s0,
        audio.sample_rate⟩, folded.2.1)

/-- The reconciliation part of `Editor::edit`/`Editor::preview`
(`editor.rs`, lines 62-80 and 238-250): filter too-short removals, merge,
sort, snap to zero crossings. -/
def Editor.reconcile (cfg : EditorConfig) (audio : AudioData)
    (removals : List Removal) : List (ℕ × ℕ × Removal) :=
  let min_duration := (cfg.min_removal_ms : ℚ) / 1000
  let valid_removals := removals.filter (fun r => min_duration ≤ r.duration)
  let merged_removals := Editor.merge_removals cfg valid_removals
  let sorted_removals := sortByStart merged_removals
  Editor.adjust_to_zero_crossings cfg audio sorted_removals

/-- The pure heart of `Editor::edit` (`editor.rs`, lines 48-97): reconcile and
apply, without the file IO around it. -/
def Editor.render (cfg : EditorConfig) (audio : AudioData)
    (removals : List Removal) : AudioData × List AppliedEdit :=
  Editor.apply_removals cfg audio (Editor.reconcile cfg audio removals)

/-! ## `JsonReport::from_report` (`exporter.rs`, lines 246-295) -/

/-- `ReasonStats` from `exporter.rs`. -/
structure ReasonStats where
  count : ℕ
  duration : ℚ
deriving DecidableEq, Repr

/-- `Statistics` from `exporter.rs`.  The `HashMap<String, ReasonStats>` is
modelled as an association list with unique keys (iteration order of the map
does not matter for any claim, sums over entries are order-independent). -/
structure Statistics where
  by_reason : List (String × ReasonStats)
  total_removed_duration : ℚ
deriving DecidableEq, Repr

/-- `by_reason.entry(reason).or_insert(..); count += 1; duration += d` on the
association-list model of the map. -/
def updateReason (m : List (String × ReasonStats)) (k : String) (d : ℚ) :
    List (String × ReasonStats) :=
  match m with
  | [] => [(k, ⟨1, d⟩)]
  | (k', s) :: rest =>
    if k' = k then (k', ⟨s.count + 1, s.duration + d⟩) :: rest
    else (k', s) :: updateReason rest k d

/-- One iteration of the statistics loop of `JsonReport::from_report`:
`duration = end - start`, `total_removed += duration`, and the `by_reason`
entry update. -/
def statStep (st : Statistics) (e : AppliedEdit) : Statistics :=
  let duration := e.original_end - e.original_start
  ⟨updateReason st.by_reason e.reason duration,
    st.total_removed_duration + duration⟩

/-- The statistics loop of `JsonReport::from_report`: one pass over the edits
accumulating `by_reason` and `total_removed`. -/
def statisticsOf (edits : List AppliedEdit) : Statistics :=
  edits.foldl statStep ⟨[], 0⟩

/-- `JsonReport` from `exporter.rs` (the serialized report object). -/
structure JsonReport where
  version : String
  generated_at : String
  input : String
  output : String
  original_duration : ℚ
  edited_duration : ℚ
  removed_duration : ℚ
  reduction_percent : ℚ
  edit_count : ℕ
  edits : List AppliedEdit
  statistics : Statistics
deriving DecidableEq, Repr

/-- `JsonReport::from_report`.  The wall-clock timestamp `Local::now()` is the
one non-pure input and is passed in as `now`. -/
def JsonReport.from_report (now : String) (report : EditReport) : JsonReport :=
  let removed_duration := report.original_duration - report.edited_duration
  let reduction_percent :=
    if 0 < report.original_duration then
      removed_duration / report.original_duration * 100
    else 0
  { version := "1.0"
    generated_at := now
    input := report.input_path
    output := report.output_path
    original_duration := report.original_duration
    edited_duration := report.edited_duration
    removed_duration := removed_duration
    reduction_percent := reduction_percent
    edit_count := report.edits.length
    edits := report.edits
    statistics := statisticsOf report.edits }

/-- The sum of `by_reason[r].duration` over all reasons `r` of the map. -/
def sumByReason (m : List (String × ReasonStats)) : ℚ :=
  (m.map (fun e => e.2.duration)).sum

/-- In-bounds condition for every slice `Editor::apply_removals` takes from a
buffer of `n` samples, replayed along the plan with the running `last_end`:
each kept slice `samples[last_end..start]` (taken only when
`start > last_end`) needs `start ≤ n`, and the trailing `samples[last_end..]`
needs `last_end ≤ n`. -/
def plan_slices_ok (n : ℕ) : ℕ → List (ℕ × ℕ × Removal) → Prop
  | last_end, [] => last_end ≤ n
  | last_end, p :: rest => (last_end < p.1 → p.1 ≤ n) ∧ plan_slices_ok n p.2.1 rest

end Reclip

-- sanity checks against the unit tests in `audio.rs`
example : Reclip.find_zero_crossing
    [1/2, 3/10, 1/10, -1/10, -3/10, -1/2] 3 2 = 2 := by
  unfold Reclip.find_zero_crossing
  norm_num [List.range', Reclip.zcStep, Reclip.isCrossing, Reclip.zcDist, List.getD]

example : (Reclip.apply_crossfade (List.replicate 100 1) (List.replicate 100 0) 10).length
    = 190 := by
  norm_num [Reclip.apply_crossfade]

namespace Reclip

/-! ## Helper lemmas -/

theorem apply_crossfade_length (s1 s2 : List ℚ) (cf : ℕ) :
    (apply_crossfade s1 s2 cf).length =
      if cf = 0 ∨ s1 = [] ∨ s2 = [] then s1.length + s2.length
      else s1.length + s2.length - min cf (min s1.length s2.length) := by
  unfold apply_crossfade
  split
  · simp
  · rename_i h
    push_neg at h
    obtain ⟨h0, h1, h2⟩ := h
    have l1 : 0 < s1.length := List.length_pos.mpr h1
    have l2 : 0 < s2.length := List.length_pos.mpr h2
    simp only [List.length_append, List.length_take, List.length_drop,
      List.length_map, List.length_range]
    omega

theorem sumByReason_updateReason (m : List (String × ReasonStats)) (k : String) (d : ℚ) :
    sumByReason (updateReason m k d) = sumByReason m + d := by
  induction m with
  | nil => simp [updateReason, sumByReason]
  | cons e rest ih =>
    obtain ⟨k', s⟩ := e
    by_cases h : k' = k
    · simp only [updateReason, if_pos h, sumByReason, List.map_cons, List.sum_cons]
      simp only [sumByReason] at *
      ring
    · simp only [updateReason, if_neg h, sumByReason, List.map_cons, List.sum_cons] at *
      rw [ih]
      ring

theorem statStep_fold_sum (edits : List AppliedEdit) :
    ∀ st : Statistics, sumByReason st.by_reason = st.total_removed_duration →
      sumByReason (edits.foldl statStep st).by_reason
        = (edits.foldl statStep st).total_removed_duration := by
  induction edits with
  | nil => intro st h; simpa using h
  | cons e rest ih =>
    intro st h
    simp only [List.foldl_cons]
    exact ih _ (by simp [statStep, sumByReason_updateReason, h])

end Reclip

namespace Reclip

/-! ## Claim C4: crossfade length algebra -/

/-- C4: for non-empty `A`, `B` and `fadeLen > 0`,
`len(crossfade(A,B,fadeLen)) = len(A) + len(B) - min(fadeLen, len(A), len(B))`;
`crossfade(A,B,0)` and a crossfade with an empty segment are plain
concatenation. -/
theorem crossfade_length_spec (A B : List ℚ) (fadeLen : ℕ) :
    (A ≠ [] → B ≠ [] → 0 < fadeLen →
      (apply_crossfade A B fadeLen).length
        = A.length + B.length - min fadeLen (min A.length B.length)) ∧
    apply_crossfade A B 0 = A ++ B ∧
    ((A = [] ∨ B = []) → apply_crossfade A B fadeLen = A ++ B) := by
  refine ⟨fun hA hB hf => ?_, ?_, fun h => ?_⟩
  · rw [apply_crossfade_length, if_neg (by push_neg; exact ⟨by omega, hA, hB⟩)]
  · simp [apply_crossfade]
  · unfold apply_crossfade
    rw [if_pos (Or.inr h)]

/-- Witness for C4 at `A = [1, 2]`, `B = [3, 4]`, `fadeLen = 1`. -/
theorem crossfade_length_spec_witness :
    (apply_crossfade [(1 : ℚ), 2] [3, 4] 1).length
        = [(1 : ℚ), 2].length + [(3 : ℚ), 4].length
          - min 1 (min [(1 : ℚ), 2].length [(3 : ℚ), 4].length) ∧
    apply_crossfade [(1 : ℚ), 2] [3, 4] 0 = [1, 2] ++ [3, 4] ∧
    apply_crossfade ([] : List ℚ) [3, 4] 7 = [] ++ [3, 4] :=
  ⟨(crossfade_length_spec [1, 2] [3, 4] 1).1 (by simp) (by simp) (by norm_num),
   (crossfade_length_spec [1, 2] [3, 4] 0).2.1,
   (crossfade_length_spec [] [3, 4] 7).2.2 (Or.inl rfl)⟩

/-! ## Claim C5: JSON statistics sum -/

/-- C5 counterexample: for the `EditReport` with `original_duration = 10`,
`edited_duration = 10` and a single 5-second edit, the sum of the
`by_reason` durations is `5` while `removed_duration = original - edited`
is `0`; the difference is not floating-point rounding. -/
theorem json_sum_ne_removed_duration :
    ¬ (sumByReason ((JsonReport.from_report "t"
          { input_path := "in", output_path := "out",
            original_duration := 10, edited_duration := 10,
            edits := [{ original_start := 0, original_end := 5,
                        reason := "filler", text := "x" }] }).statistics.by_reason)
        = (JsonReport.from_report "t"
          { input_path := "in", output_path := "out",
            original_duration := 10, edited_duration := 10,
            edits := [{ original_start := 0, original_end := 5,
                        reason := "filler", text := "x" }] }).removed_duration) := by
  norm_num [JsonReport.from_report, statisticsOf, statStep, updateReason, sumByReason]

/-- C5 (amended): in the exported JSON the sum over all reasons of
`by_reason[r].duration` equals `statistics.total_removed_duration`, the sum
of the edits' original durations — not in general the top-level
`removed_duration = original_duration - edited_duration`. -/
theorem json_by_reason_sum (now : String) (report : EditReport) :
    sumByReason ((JsonReport.from_report now report).statistics.by_reason)
      = (JsonReport.from_report now report).statistics.total_removed_duration := by
  simp only [JsonReport.from_report, statisticsOf]
  exact statStep_fold_sum report.edits ⟨[], 0⟩ (by simp [sumByReason])

/-! ## Claim C6: time-to-sample conversion -/

/-- C6 counterexample: at `sampleRate = 2` and `t = 7/4`, the code computes
`(7/4 * 2) as usize = 3` (truncation), while the nearest integer to `7/2`
is `4`. -/
theorem time_to_sample_not_round :
    ¬ (((AudioData.mk [] 2).time_to_sample (7 / 4) : ℤ)
        = round ((7 / 4 : ℚ) * (((AudioData.mk [] 2).sample_rate : ℕ) : ℚ))) := by
  norm_num [AudioData.time_to_sample, round_eq]

/-- C6 (amended): the conversion truncates: for every non-negative time `t`
it returns `⌊t * sampleRate⌋` (and clamps negative products to `0`), not the
nearest integer. -/
theorem time_to_sample_eq_floor (a : AudioData) (t : ℚ) (ht : 0 ≤ t) :
    (a.time_to_sample t : ℤ) = ⌊t * (a.sample_rate : ℚ)⌋ := by
  unfold AudioData.time_to_sample
  exact Int.toNat_of_nonneg (Int.floor_nonneg.mpr (mul_nonneg ht (by positivity)))

/-- Witness for C6 (amended) at `sampleRate = 2`, `t = 7/4`. -/
theorem time_to_sample_eq_floor_witness :
    (0 : ℚ) ≤ 7 / 4 ∧
    ((AudioData.mk [] 2).time_to_sample (7 / 4) : ℤ)
      = ⌊(7 / 4 : ℚ) * (((AudioData.mk [] 2).sample_rate : ℕ) : ℚ)⌋ :=
  ⟨by norm_num, time_to_sample_eq_floor (AudioData.mk [] 2) (7 / 4) (by norm_num)⟩

/-! ## Claim C7: empty plan renders an unmodified copy -/

/-- C7: if the reconciled plan is empty, the render returns the input buffer
unchanged (same samples, same sample rate) together with an empty edit
list. -/
theorem render_empty_plan (cfg : EditorConfig) (audio : AudioData)
    (removals : List Removal)
    (h : Editor.reconcile cfg audio removals = []) :
    Editor.render cfg audio removals = (audio, []) := by
  unfold Editor.render
  rw [h]
  simp [Editor.apply_removals]

/-- Witness for C7: an empty removal list yields an empty plan, and the
render returns the untouched buffer. -/
theorem render_empty_plan_witness :
    Editor.reconcile EditorConfig.default ⟨[1, -1], 48000⟩ [] = [] ∧
    Editor.render EditorConfig.default ⟨[1, -1], 48000⟩ [] = (⟨[1, -1], 48000⟩, []) :=
  ⟨rfl, render_empty_plan _ _ _ rfl⟩

end Reclip

namespace Reclip

/-- Fold invariant: a property preserved by every step holds for the fold. -/
theorem foldl_preserve {α β : Type} (P : β → Prop) (f : β → α → β) :
    ∀ (l : List α) (b : β), P b → (∀ x a, P x → a ∈ l → P (f x a)) →
      P (l.foldl f b) := by
  intro l
  induction l with
  | nil => intro b hb _; exact hb
  | cons a t ih =>
    intro b hb hstep
    exact ih (f b a) (hstep b a hb (List.mem_cons_self a t))
      (fun x a' hx ha' => hstep x a' hx (List.mem_cons_of_mem a ha'))

/-! ## Claim C8: `find_zero_crossing` stays in bounds -/

/-- C8 counterexample: on an empty sample array the function returns `0`,
which is not a valid index (there is none). -/
theorem find_zero_crossing_empty_counterexample :
    find_zero_crossing ([] : List ℚ) 5 3 = 0 ∧
    ¬ (find_zero_crossing ([] : List ℚ) 5 3 < ([] : List ℚ).length) := by
  constructor
  · rfl
  · simp

/-- C8 (amended): for every non-empty sample array, `find_zero_crossing`
returns a valid index, i.e. one in `[0, len(samples) - 1]`. -/
theorem find_zero_crossing_lt_length (s : List ℚ) (target search : ℕ)
    (h : s ≠ []) : find_zero_crossing s target search < s.length := by
  have hn : 0 < s.length := List.length_pos.mpr h
  unfold find_zero_crossing
  dsimp only
  have hmem : ∀ i ∈ List.range' (target - search)
      (min (target + search) (s.length - 1) - (target - search)),
      i < s.length := by
    intro i hi
    rw [List.mem_range'_1] at hi
    omega
  have h1 : ((List.range' (target - search)
      (min (target + search) (s.length - 1) - (target - search))).foldl
        (zcStep s target) ⟨min target (s.length - 1), none⟩).best < s.length := by
    apply foldl_preserve (fun acc : ZcAcc => acc.best < s.length)
    · show min target (s.length - 1) < s.length
      omega
    · intro acc i hacc hi
      unfold zcStep
      split
      · cases hmd : acc.minDist with
        | none => simpa using hmem i hi
        | some m =>
          dsimp only
          split
          · simpa using hmem i hi
          · exact hacc
      · exact hacc
  rcases hmd : ((List.range' (target - search)
      (min (target + search) (s.length - 1) - (target - search))).foldl
        (zcStep s target) ⟨min target (s.length - 1), none⟩).minDist with _ | d
  · apply foldl_preserve (fun acc : ℕ × Option ℚ => acc.1 < s.length)
    · exact h1
    · intro acc i hacc hi
      unfold fbStep
      cases hx : acc.2 with
      | none => simpa using hmem i hi
      | some m =>
        dsimp only
        split
        · simpa using hmem i hi
        · exact hacc
  · exact h1

/-- Witness for C8 (amended) at a concrete non-empty array. -/
theorem find_zero_crossing_lt_length_witness :
    find_zero_crossing [(1 : ℚ), -1] 5 3 < [(1 : ℚ), -1].length :=
  find_zero_crossing_lt_length [1, -1] 5 3 (by simp)

end Reclip

namespace Reclip

/-- Membership is invariant under the stable sort. -/
theorem mem_sortByStart {l : List Removal} {x : Removal} :
    x ∈ sortByStart l ↔ x ∈ l := List.mem_insertionSort startLe

/-- Sorting a two-element list whose starts are already in order is the
identity. -/
theorem sortByStart_pair (a b : Removal) (h : a.start ≤ b.start) :
    sortByStart [a, b] = [a, b] := by
  simp [sortByStart, List.insertionSort, List.orderedInsert, startLe, h]

/-! ## Claim C1: the merged end is not a max -/

/-- C1 counterexample: merging the nested removal `[1, 2]` into the current
interval `[0, 10]` (gap `1 - 10 = -9 ≤ 50/1000`) sets the merged end to `2`,
not to `max(10, 2) = 10`: a fully nested removal does **not** leave the
current end unchanged. -/
theorem merge_max_end_counterexample :
    (Editor.merge_removals EditorConfig.default
        [{ start := 0, stop := 10, reason := .Filler, text := "a", confidence := 1 },
         { start := 1, stop := 2, reason := .Filler, text := "b", confidence := 1 }]).map
      Removal.stop = [2] ∧ (2 : ℚ) ≠ max 10 2 := by
  constructor
  · unfold Editor.merge_removals
    rw [sortByStart_pair _ _ (by norm_num)]
    norm_num [mergeStep, EditorConfig.default]
  · norm_num

/-- C1 (amended): whenever the next removal's gap to the current interval is
at most `mergeGapMs/1000`, the merged interval's end becomes `next.end` (the
later removal's end), so a removal nested inside the current interval
*shrinks* the merged end rather than leaving it unchanged. -/
theorem merge_end_is_next (cfg : EditorConfig) (a b : Removal)
    (hab : a.start ≤ b.start)
    (hgap : b.start - a.stop ≤ (cfg.merge_gap_ms : ℚ) / 1000) :
    (Editor.merge_removals cfg [a, b]).map Removal.stop = [b.stop] := by
  unfold Editor.merge_removals
  rw [sortByStart_pair a b hab]
  simp [mergeStep, hgap]

/-- Witness for C1 (amended) at the counterexample's input. -/
theorem merge_end_is_next_witness :
    (Editor.merge_removals EditorConfig.default
        [{ start := 0, stop := 10, reason := .Filler, text := "a", confidence := 1 },
         { start := 1, stop := 2, reason := .Filler, text := "b", confidence := 1 }]).map
      Removal.stop = [2] :=
  merge_end_is_next EditorConfig.default _ _ (by norm_num)
    (by norm_num [EditorConfig.default])

/-! ## Claim C10: merging keeps the earliest member's start and reason -/

/-- C10: every merged interval keeps the `start` and the `reason` of one of
the input removals (its group's earliest member); merging two removals
updates only `end`, `text` and `confidence`, so the later member's reason
survives only inside the concatenated text. -/
theorem merge_keeps_first_start_reason :
    (∀ (cfg : EditorConfig) (removals : List Removal) (m : Removal),
        m ∈ Editor.merge_removals cfg removals →
        ∃ r ∈ removals, m.start = r.start ∧ m.reason = r.reason) ∧
    (∀ (cfg : EditorConfig) (a b : Removal),
        a.start ≤ b.start →
        b.start - a.stop ≤ (cfg.merge_gap_ms : ℚ) / 1000 →
        Editor.merge_removals cfg [a, b]
          = [{ start := a.start, stop := b.stop, reason := a.reason,
               text := a.text ++ " ... " ++ b.text,
               confidence := min a.confidence b.confidence }]) := by
  constructor
  · intro cfg removals m hm
    unfold Editor.merge_removals at hm
    cases hs : sortByStart removals with
    | nil => rw [hs] at hm; simp at hm
    | cons fst rst =>
      rw [hs] at hm
      rw [List.mem_reverse] at hm
      have hInit : ∀ y ∈ [fst],
          ∃ r ∈ removals, y.start = r.start ∧ y.reason = r.reason := by
        intro y hy
        rw [List.mem_singleton] at hy
        rw [hy]
        exact ⟨fst, mem_sortByStart.mp (hs ▸ List.mem_cons_self fst rst), rfl, rfl⟩
      have hStep : ∀ (acc : List Removal) (nx : Removal),
          (∀ y ∈ acc, ∃ r ∈ removals, y.start = r.start ∧ y.reason = r.reason) →
          nx ∈ rst →
          ∀ y ∈ mergeStep ((cfg.merge_gap_ms : ℚ) / 1000) acc nx,
            ∃ r ∈ removals, y.start = r.start ∧ y.reason = r.reason := by
        intro acc nx hacc hnx
        have hnxRem : nx ∈ removals :=
          mem_sortByStart.mp (hs ▸ List.mem_cons_of_mem fst hnx)
        intro y hy
        unfold mergeStep at hy
        cases acc with
        | nil =>
          simp only [List.mem_singleton] at hy
          rw [hy]
          exact ⟨nx, hnxRem, rfl, rfl⟩
        | cons last restAcc =>
          dsimp only at hy
          split at hy
          · rcases List.mem_cons.mp hy with h' | h'
            · subst h'
              obtain ⟨r, hr, h1, h2⟩ := hacc last (List.mem_cons_self last restAcc)
              exact ⟨r, hr, h1, h2⟩
            · exact hacc y (List.mem_cons_of_mem last h')
          · rcases List.mem_cons.mp hy with h' | h'
            · rw [h']; exact ⟨nx, hnxRem, rfl, rfl⟩
            · exact hacc y h'
      exact foldl_preserve (fun acc : List Removal =>
          ∀ y ∈ acc, ∃ r ∈ removals, y.start = r.start ∧ y.reason = r.reason)
        (mergeStep ((cfg.merge_gap_ms : ℚ) / 1000)) rst [fst] hInit hStep m hm
  · intro cfg a b hab hgap
    unfold Editor.merge_removals
    rw [sortByStart_pair a b hab]
    simp [mergeStep, hgap]

/-- Witness for C10: both conjuncts at the two-removal instance
`a = [0,10] (Filler)`, `b = [1,2] (Repeat)`. -/
theorem merge_keeps_first_start_reason_witness :
    (∃ r ∈ [({ start := 0, stop := 10, reason := .Filler, text := "a",
                confidence := 1 } : Removal),
             { start := 1, stop := 2, reason := .Repeat, text := "b",
               confidence := 1 / 2 }],
        (0 : ℚ) = r.start ∧ RemovalReason.Filler = r.reason) ∧
    Editor.merge_removals EditorConfig.default
        [{ start := 0, stop := 10, reason := .Filler, text := "a", confidence := 1 },
         { start := 1, stop := 2, reason := .Repeat, text := "b", confidence := 1 / 2 }]
      = [{ start := 0, stop := 2, reason := .Filler, text := "a" ++ " ... " ++ "b",
           confidence := min 1 (1 / 2) }] := by
  have h2 := merge_keeps_first_start_reason.2 EditorConfig.default
    { start := 0, stop := 10, reason := .Filler, text := "a", confidence := 1 }
    { start := 1, stop := 2, reason := .Repeat, text := "b", confidence := 1 / 2 }
    (by norm_num) (by norm_num [EditorConfig.default])
  refine ⟨?_, h2⟩
  have hmem : ({ start := 0, stop := 2, reason := .Filler,
                 text := "a" ++ " ... " ++ "b",
                 confidence := min 1 (1 / 2) } : Removal)
      ∈ Editor.merge_removals EditorConfig.default
        [{ start := 0, stop := 10, reason := .Filler, text := "a", confidence := 1 },
         { start := 1, stop := 2, reason := .Repeat, text := "b", confidence := 1 / 2 }] := by
    rw [h2]; exact List.mem_singleton_self _
  exact merge_keeps_first_start_reason.1 EditorConfig.default _ _ hmem

end Reclip

namespace Reclip

/-- Window membership: the scanned range `start..stop` of `find_zero_crossing`
contains exactly the `j` with `a ≤ j < b`. -/
theorem mem_window {a b j : ℕ} : j ∈ List.range' a (b - a) ↔ a ≤ j ∧ j < b := by
  rw [List.mem_range'_1]
  omega

/-- Characterization of the first scan loop of `find_zero_crossing`: either
no index of the window is a zero crossing and the accumulator is untouched,
or the result is the first crossing of minimal distance to the target. -/
theorem zc_fold_spec (s : List ℚ) (t a : ℕ) (init : ℕ) :
    ∀ k : ℕ,
      (((List.range' a k).foldl (zcStep s t) ⟨init, none⟩ = ⟨init, none⟩) ∧
        ∀ j ∈ List.range' a k, ¬ isCrossing s j) ∨
      (∃ z d, (List.range' a k).foldl (zcStep s t) ⟨init, none⟩ = ⟨z, some d⟩ ∧
        z ∈ List.range' a k ∧ isCrossing s z ∧ d = zcDist z t ∧
        ∀ j ∈ List.range' a k, isCrossing s j →
          d ≤ zcDist j t ∧ (j < z → d < zcDist j t)) := by
  intro k
  induction k with
  | zero => left; simp
  | succ k ih =>
    have hsplit : List.range' a (k + 1) = List.range' a k ++ [a + k] := by
      have h0 : List.range' a (k + 1) = List.range' a k ++ [a + 1 * k] :=
        List.range'_concat a k
      simpa using h0
    have hmemk : ∀ j ∈ List.range' a k, j < a + k := by
      intro j hj
      rw [List.mem_range'_1] at hj
      omega
    rw [hsplit, List.foldl_append]
    rcases ih with ⟨heq, hnone⟩ | ⟨z, d, heq, hzmem, hzcross, hd, hmin⟩
    · rw [heq]
      by_cases hc : isCrossing s (a + k)
      · right
        refine ⟨a + k, zcDist (a + k) t, ?_, ?_, hc, rfl, ?_⟩
        · simp [zcStep, hc]
        · simp
        · intro j hj hjc
          rw [List.mem_append] at hj
          rcases hj with hj | hj
          · exact absurd hjc (hnone j hj)
          · simp only [List.mem_singleton] at hj
            subst hj
            exact ⟨le_refl _, fun hlt => absurd hlt (lt_irrefl _)⟩
      · left
        constructor
        · simp [zcStep, hc]
        · intro j hj
          rw [List.mem_append] at hj
          rcases hj with hj | hj
          · exact hnone j hj
          · simp only [List.mem_singleton] at hj
            rw [hj]; exact hc
    · rw [heq]
      by_cases hc : isCrossing s (a + k)
      · by_cases hlt : zcDist (a + k) t < d
        · right
          refine ⟨a + k, zcDist (a + k) t, ?_, ?_, hc, rfl, ?_⟩
          · simp [zcStep, hc, hlt]
          · simp
          · intro j hj hjc
            rw [List.mem_append] at hj
            rcases hj with hj | hj
            · have := (hmin j hj hjc).1
              exact ⟨by omega, fun _ => by omega⟩
            · simp only [List.mem_singleton] at hj
              subst hj
              exact ⟨le_refl _, fun h' => absurd h' (lt_irrefl _)⟩
        · right
          refine ⟨z, d, ?_, ?_, hzcross, hd, ?_⟩
          · simp [zcStep, hc, hlt]
          · exact List.mem_append_left _ hzmem
          · intro j hj hjc
            rw [List.mem_append] at hj
            rcases hj with hj | hj
            · exact hmin j hj hjc
            · simp only [List.mem_singleton] at hj
              subst hj
              have hzlt : z < a + k := hmemk z hzmem
              exact ⟨by omega, fun h' => absurd h' (by omega)⟩
      · right
        refine ⟨z, d, ?_, ?_, hzcross, hd, ?_⟩
        · simp [zcStep, hc]
        · exact List.mem_append_left _ hzmem
        · intro j hj hjc
          rw [List.mem_append] at hj
          rcases hj with hj | hj
          · exact hmin j hj hjc
          · simp only [List.mem_singleton] at hj
            subst hj
            exact absurd hjc hc

theorem fbStep_none (s : List ℚ) (b i : ℕ) :
    fbStep s (b, none) i = (i, some |s.getD i 0|) := rfl

theorem fbStep_some (s : List ℚ) (b : ℕ) (v : ℚ) (i : ℕ) :
    fbStep s (b, some v) i =
      if |s.getD i 0| < v then (i, some |s.getD i 0|) else (b, some v) := rfl

/-- Characterization of the fallback loop of `find_zero_crossing`: on a
non-empty window it returns the first index of smallest absolute sample
value. -/
theorem fb_fold_spec (s : List ℚ) (a b0 : ℕ) :
    ∀ k : ℕ, 0 < k →
      ∃ z v, (List.range' a k).foldl (fbStep s) (b0, none) = (z, some v) ∧
        z ∈ List.range' a k ∧ v = |s.getD z 0| ∧
        ∀ j ∈ List.range' a k, v ≤ |s.getD j 0| ∧ (j < z → v < |s.getD j 0|) := by
  intro k
  induction k with
  | zero => intro h; exact absurd h (lt_irrefl 0)
  | succ k ih =>
    intro _
    have hsplit : List.range' a (k + 1) = List.range' a k ++ [a + k] := by
      have h0 : List.range' a (k + 1) = List.range' a k ++ [a + 1 * k] :=
        List.range'_concat a k
      simpa using h0
    have hmemk : ∀ j ∈ List.range' a k, j < a + k := by
      intro j hj
      rw [List.mem_range'_1] at hj
      omega
    rw [hsplit, List.foldl_append]
    rcases Nat.eq_zero_or_pos k with hk | hk
    · subst hk
      refine ⟨a, |s.getD a 0|, ?_, ?_, rfl, ?_⟩
      · simp [fbStep_none]
      · simp
      · intro j hj
        simp only [List.range'_zero, List.nil_append, List.mem_singleton] at hj
        subst hj
        exact ⟨le_refl _, fun h' => absurd h' (lt_irrefl _)⟩
    · obtain ⟨z, v, heq, hzmem, hv, hmin⟩ := ih hk
      rw [heq]
      by_cases hlt : |s.getD (a + k) 0| < v
      · refine ⟨a + k, |s.getD (a + k) 0|, ?_, ?_, rfl, ?_⟩
        · simp only [List.foldl_cons, List.foldl_nil, fbStep_some, if_pos hlt]
        · simp
        · intro j hj
          rw [List.mem_append] at hj
          rcases hj with hj | hj
          · have := (hmin j hj).1
            constructor
            · linarith
            · intro _; linarith
          · simp only [List.mem_singleton] at hj
            subst hj
            exact ⟨le_refl _, fun h' => absurd h' (lt_irrefl _)⟩
      · refine ⟨z, v, ?_, ?_, hv, ?_⟩
        · simp only [List.foldl_cons, List.foldl_nil, fbStep_some, if_neg hlt]
        · exact List.mem_append_left _ hzmem
        · intro j hj
          rw [List.mem_append] at hj
          rcases hj with hj | hj
          · exact hmin j hj
          · simp only [List.mem_singleton] at hj
            subst hj
            push_neg at hlt
            have hzlt : z < a + k := hmemk z hzmem
            exact ⟨hlt, fun h' => absurd h' (by omega)⟩

end Reclip

namespace Reclip

/-- Full characterization of `find_zero_crossing`: an empty window returns
the clamped target; otherwise the result lies in the window and is the
first-of-minimal-distance crossing, or (when the window has no crossing) the
first index of smallest absolute sample value. -/
theorem fzc_cases (s : List ℚ) (t r : ℕ) :
    (min (t + r) (s.length - 1) ≤ t - r ∧
      find_zero_crossing s t r = min t (s.length - 1)) ∨
    (t - r < min (t + r) (s.length - 1) ∧
      t - r ≤ find_zero_crossing s t r ∧
      find_zero_crossing s t r < min (t + r) (s.length - 1) ∧
      ((isCrossing s (find_zero_crossing s t r) ∧
        ∀ j, t - r ≤ j → j < min (t + r) (s.length - 1) → isCrossing s j →
          zcDist (find_zero_crossing s t r) t ≤ zcDist j t ∧
            (j < find_zero_crossing s t r →
              zcDist (find_zero_crossing s t r) t < zcDist j t)) ∨
       ((∀ j, t - r ≤ j → j < min (t + r) (s.length - 1) → ¬ isCrossing s j) ∧
        ∀ j, t - r ≤ j → j < min (t + r) (s.length - 1) →
          |s.getD (find_zero_crossing s t r) 0| ≤ |s.getD j 0| ∧
            (j < find_zero_crossing s t r →
              |s.getD (find_zero_crossing s t r) 0| < |s.getD j 0|)))) := by
  by_cases hab : min (t + r) (s.length - 1) ≤ t - r
  · left
    refine ⟨hab, ?_⟩
    have hz : min (t + r) (s.length - 1) - (t - r) = 0 := Nat.sub_eq_zero_of_le hab
    unfold find_zero_crossing
    dsimp only
    rw [hz]
    simp
  · right
    push_neg at hab
    refine ⟨hab, ?_⟩
    rcases zc_fold_spec s t (t - r) (min t (s.length - 1))
        (min (t + r) (s.length - 1) - (t - r)) with
      ⟨heq, hnone⟩ | ⟨z, d, heq, hzmem, hzcross, hd, hmin⟩
    · -- no crossing in the window: fallback loop decides
      have hfzc : find_zero_crossing s t r =
          ((List.range' (t - r) (min (t + r) (s.length - 1) - (t - r))).foldl
            (fbStep s) (min t (s.length - 1), none)).1 := by
        unfold find_zero_crossing
        dsimp only
        rw [heq]
      obtain ⟨z, v, hfb, hzmem, hv, hfbmin⟩ :=
        fb_fold_spec s (t - r) (min t (s.length - 1))
          (min (t + r) (s.length - 1) - (t - r)) (by omega)
      rw [hfb] at hfzc
      rw [mem_window] at hzmem
      refine ⟨by omega, by omega, Or.inr ⟨?_, ?_⟩⟩
      · intro j hj1 hj2
        exact hnone j (mem_window.mpr ⟨hj1, hj2⟩)
      · intro j hj1 hj2
        have := hfbmin j (mem_window.mpr ⟨hj1, hj2⟩)
        rw [hfzc, ← hv]
        exact this
    · -- a crossing was found
      have hfzc : find_zero_crossing s t r = z := by
        unfold find_zero_crossing
        dsimp only
        rw [heq]
      rw [mem_window] at hzmem
      refine ⟨by omega, by omega, Or.inl ⟨by rw [hfzc]; exact hzcross, ?_⟩⟩
      intro j hj1 hj2 hjc
      have := hmin j (mem_window.mpr ⟨hj1, hj2⟩) hjc
      rw [hfzc, ← hd]
      exact this

end Reclip

namespace Reclip

/-- `find_zero_crossing` is monotone in the target index (for a fixed sample
array and search radius).  This is the key fact behind the non-overlap of
the snapped plan: nearest-crossing projection with first-wins tie-breaking
preserves order. -/
theorem find_zero_crossing_mono (s : List ℚ) (r : ℕ) {t1 t2 : ℕ}
    (h12 : t1 ≤ t2) :
    find_zero_crossing s t1 r ≤ find_zero_crossing s t2 r := by
  rcases fzc_cases s t1 r with ⟨he1, hv1⟩ | ⟨hne1, hlo1, hhi1, hc1⟩
  · rcases fzc_cases s t2 r with ⟨he2, hv2⟩ | ⟨hne2, hlo2, hhi2, hc2⟩
    · rw [hv1, hv2]
      omega
    · -- an empty window for the smaller target forces an empty window for
      -- the larger one, contradiction
      omega
  · rcases fzc_cases s t2 r with ⟨he2, hv2⟩ | ⟨hne2, hlo2, hhi2, hc2⟩
    · -- window 2 empty while window 1 is not: then the clamp is `len - 1`,
      -- an upper bound for any window-1 result
      rw [hv2]
      omega
    · by_contra hcon
      push_neg at hcon
      have m1 : t1 - r ≤ find_zero_crossing s t2 r := by omega
      have m1' : find_zero_crossing s t2 r < min (t1 + r) (s.length - 1) := by
        omega
      have m2 : t2 - r ≤ find_zero_crossing s t1 r := by omega
      have m2' : find_zero_crossing s t1 r < min (t2 + r) (s.length - 1) := by
        omega
      rcases hc1 with ⟨hcr1, hmin1⟩ | ⟨hnc1, hfb1⟩
      · rcases hc2 with ⟨hcr2, hmin2⟩ | ⟨hnc2, hfb2⟩
        · have h1 := (hmin1 (find_zero_crossing s t2 r) m1 m1' hcr2).2 hcon
          have h2 := (hmin2 (find_zero_crossing s t1 r) m2 m2' hcr1).1
          unfold zcDist at h1 h2
          omega
        · exact hnc2 _ m2 m2' hcr1
      · rcases hc2 with ⟨hcr2, hmin2⟩ | ⟨hnc2, hfb2⟩
        · exact hnc1 _ m1 m1' hcr2
        · have h1 := (hfb1 (find_zero_crossing s t2 r) m1 m1').2 hcon
          have h2 := (hfb2 (find_zero_crossing s t1 r) m2 m2').1
          exact absurd (lt_of_lt_of_le h1 h2) (lt_irrefl _)

end Reclip

namespace Reclip

theorem mergeStep_cons (thr : ℚ) (cur : Removal) (done : List Removal)
    (r : Removal) :
    mergeStep thr (cur :: done) r =
      if r.start - cur.stop ≤ thr then
        { cur with
          stop := r.stop,
          text := cur.text ++ " ... " ++ r.text,
          confidence := min cur.confidence r.confidence } :: done
      else r :: cur :: done := rfl

/-- Invariant of the merge loop: starting from a well-formed accumulator
(each interval with `start ≤ end`, consecutive output intervals separated by
more than the merge gap, stored in reverse), folding a sorted tail keeps the
accumulator well-formed. -/
theorem merge_fold_good (thr : ℚ) (hthr : 0 ≤ thr) :
    ∀ (l : List Removal) (cur : Removal) (done : List Removal),
      (∀ m ∈ cur :: done, m.start ≤ m.stop) →
      (cur :: done).Chain' (fun x y => y.stop < x.start) →
      (∀ r ∈ l, cur.start ≤ r.start) →
      l.Pairwise (fun x y => x.start ≤ y.start) →
      (∀ r ∈ l, r.start ≤ r.stop) →
      ∃ cur' done',
        l.foldl (mergeStep thr) (cur :: done) = cur' :: done' ∧
        (∀ m ∈ cur' :: done', m.start ≤ m.stop) ∧
        (cur' :: done').Chain' (fun x y => y.stop < x.start) := by
  intro l
  induction l with
  | nil =>
    intro cur done h1 h2 _ _ _
    exact ⟨cur, done, rfl, h1, h2⟩
  | cons r l' ih =>
    intro cur done h1 h2 h3 h4 h5
    simp only [List.foldl_cons, mergeStep_cons]
    by_cases hgap : r.start - cur.stop ≤ thr
    · rw [if_pos hgap]
      apply ih
      · intro m hm
        rcases List.mem_cons.mp hm with hm | hm
        · rw [hm]
          show cur.start ≤ r.stop
          exact le_trans (h3 r (List.mem_cons_self r l'))
            (h5 r (List.mem_cons_self r l'))
        · exact h1 m (List.mem_cons_of_mem cur hm)
      · cases done with
        | nil => simp
        | cons d done' =>
          rw [List.chain'_cons] at h2 ⊢
          exact ⟨h2.1, h2.2⟩
      · intro r' hr'
        show cur.start ≤ r'.start
        exact h3 r' (List.mem_cons_of_mem r hr')
      · exact (List.pairwise_cons.mp h4).2
      · intro r' hr'
        exact h5 r' (List.mem_cons_of_mem r hr')
    · rw [if_neg hgap]
      push_neg at hgap
      apply ih
      · intro m hm
        rcases List.mem_cons.mp hm with hm | hm
        · rw [hm]
          exact h5 r (List.mem_cons_self r l')
        · exact h1 m hm
      · rw [List.chain'_cons]
        refine ⟨?_, h2⟩
        have : thr < r.start - cur.stop := hgap
        linarith
      · intro r' hr'
        exact (List.pairwise_cons.mp h4).1 r' hr'
      · exact (List.pairwise_cons.mp h4).2
      · intro r' hr'
        exact h5 r' (List.mem_cons_of_mem r hr')

/-- The merge step produces intervals with `start ≤ end`, pairwise strictly
separated (`prev.end < next.start`) in output order. -/
theorem merge_removals_good (cfg : EditorConfig) (removals : List Removal)
    (h5 : ∀ r ∈ removals, r.start ≤ r.stop) :
    (∀ m ∈ Editor.merge_removals cfg removals, m.start ≤ m.stop) ∧
    (Editor.merge_removals cfg removals).Chain'
      (fun x y => x.stop < y.start) := by
  unfold Editor.merge_removals
  cases hs : sortByStart removals with
  | nil => simp
  | cons fst rst =>
    have h0 : List.Sorted startLe (sortByStart removals) :=
      List.sorted_insertionSort startLe removals
    rw [hs] at h0
    have h5' : ∀ r ∈ fst :: rst, r.start ≤ r.stop := by
      intro r hr
      exact h5 r (mem_sortByStart.mp (hs ▸ hr))
    have hthr : (0 : ℚ) ≤ (cfg.merge_gap_ms : ℚ) / 1000 := by positivity
    obtain ⟨cur', done', heq, hint, hch⟩ :=
      merge_fold_good _ hthr rst fst []
        (by
          intro m hm
          rw [List.mem_singleton] at hm
          rw [hm]
          exact h5' fst (List.mem_cons_self fst rst))
        (List.chain'_singleton fst)
        (by
          intro r' hr'
          exact (List.pairwise_cons.mp h0).1 r' hr')
        ((List.pairwise_cons.mp h0).2.imp (fun h => h))
        (by
          intro r' hr'
          exact h5' r' (List.mem_cons_of_mem fst hr'))
    dsimp only
    rw [heq]
    constructor
    · intro m hm
      rw [List.mem_reverse] at hm
      exact hint m hm
    · rw [List.chain'_reverse]
      exact hch

end Reclip

namespace Reclip

/-- A chain of strictly separated intervals (each with `start ≤ end`) is
pairwise separated. -/
theorem chain_sep_pairwise (L : List Removal)
    (hint : ∀ m ∈ L, m.start ≤ m.stop)
    (hch : L.Chain' (fun x y => x.stop < y.start)) :
    L.Pairwise (fun x y => x.stop < y.start) := by
  induction L with
  | nil => exact List.Pairwise.nil
  | cons x L ih =>
    have hL : L.Pairwise (fun x y => x.stop < y.start) :=
      ih (fun m hm => hint m (List.mem_cons_of_mem x hm)) hch.tail
    rw [List.pairwise_cons]
    refine ⟨?_, hL⟩
    cases L with
    | nil => intro y hy; simp at hy
    | cons y L' =>
      rw [List.chain'_cons] at hch
      intro z hz
      rcases List.mem_cons.mp hz with hz | hz
      · rw [hz]
        exact hch.1
      · have h1 : x.stop < y.start := hch.1
        have h2 : y.start ≤ y.stop :=
          hint y (List.mem_cons_of_mem x (List.mem_cons_self y L'))
        have h3 : y.stop < z.start :=
          (List.pairwise_cons.mp hL).1 z hz
        linarith

/-- A chain of sample-index pairs whose ends don't pass the next start, each
internally ordered, is pairwise non-overlapping. -/
theorem chain_le_pairwise (L : List (ℕ × ℕ × Removal))
    (hint : ∀ p ∈ L, p.1 ≤ p.2.1)
    (hch : L.Chain' (fun p q => p.2.1 ≤ q.1)) :
    L.Pairwise (fun p q => p.2.1 ≤ q.1) := by
  induction L with
  | nil => exact List.Pairwise.nil
  | cons x L ih =>
    have hL : L.Pairwise (fun p q => p.2.1 ≤ q.1) :=
      ih (fun m hm => hint m (List.mem_cons_of_mem x hm)) hch.tail
    rw [List.pairwise_cons]
    refine ⟨?_, hL⟩
    cases L with
    | nil => intro y hy; simp at hy
    | cons y L' =>
      rw [List.chain'_cons] at hch
      intro z hz
      rcases List.mem_cons.mp hz with hz | hz
      · rw [hz]
        exact hch.1
      · have h1 : x.2.1 ≤ y.1 := hch.1
        have h2 : y.1 ≤ y.2.1 :=
          hint y (List.mem_cons_of_mem x (List.mem_cons_self y L'))
        have h3 : y.2.1 ≤ z.1 :=
          (List.pairwise_cons.mp hL).1 z hz
        omega

/-- A `filterMap` whose function guards a mapped value is a map followed by
a filter. -/
theorem filterMap_guard_eq {α β : Type} (g : α → β) (P : β → Prop)
    [DecidablePred P] (l : List α) :
    (l.filterMap fun x => if P (g x) then some (g x) else none)
      = (l.map g).filter (fun y => decide (P y)) := by
  induction l with
  | nil => rfl
  | cons x l ih =>
    simp only [List.filterMap_cons, List.map_cons, List.filter_cons]
    by_cases h : P (g x)
    · simp [h, ih]
    · simp [h, ih]

/-- `time_to_sample` is monotone (for the `ℕ`-valued sample rate). -/
theorem time_to_sample_mono (a : AudioData) {t1 t2 : ℚ} (h : t1 ≤ t2) :
    a.time_to_sample t1 ≤ a.time_to_sample t2 := by
  unfold AudioData.time_to_sample
  have : t1 * (a.sample_rate : ℚ) ≤ t2 * (a.sample_rate : ℚ) :=
    mul_le_mul_of_nonneg_right h (by positivity)
  exact Int.toNat_le_toNat (Int.floor_mono this)

/-- `adjust_to_zero_crossings` as a map-then-filter. -/
theorem adjust_eq (cfg : EditorConfig) (audio : AudioData)
    (removals : List Removal) :
    Editor.adjust_to_zero_crossings cfg audio removals =
      (removals.map (fun rm =>
        (find_zero_crossing audio.samples (audio.time_to_sample rm.start)
            (searchSamplesOf cfg audio),
         find_zero_crossing audio.samples (audio.time_to_sample rm.stop)
            (searchSamplesOf cfg audio),
         rm))).filter (fun p => decide (p.1 < p.2.1)) := by
  induction removals with
  | nil => rfl
  | cons rm l ih =>
    unfold Editor.adjust_to_zero_crossings
    unfold Editor.adjust_to_zero_crossings at ih
    rw [List.filterMap_cons, List.map_cons, List.filter_cons]
    dsimp only
    by_cases h : find_zero_crossing audio.samples (audio.time_to_sample rm.start)
        (searchSamplesOf cfg audio) <
        find_zero_crossing audio.samples (audio.time_to_sample rm.stop)
          (searchSamplesOf cfg audio)
    · rw [if_pos h, ih]
      simp [h]
    · rw [if_neg h, ih]
      simp [h]

end Reclip

namespace Reclip

/-- On an empty buffer the zero-crossing search always returns `0`. -/
theorem fzc_nil (t r : ℕ) : find_zero_crossing [] t r = 0 := by
  simp [find_zero_crossing]

/-- On a chain of separated time intervals, snapping produces a plan of
internally ordered, in-bounds, pairwise non-overlapping sample intervals. -/
theorem adjust_good (cfg : EditorConfig) (audio : AudioData) (L : List Removal)
    (hint : ∀ m ∈ L, m.start ≤ m.stop)
    (hch : L.Chain' (fun x y => x.stop < y.start)) :
    (∀ p ∈ Editor.adjust_to_zero_crossings cfg audio L,
        p.1 < p.2.1 ∧ (audio.samples ≠ [] → p.2.1 < audio.samples.length)) ∧
    (Editor.adjust_to_zero_crossings cfg audio L).Chain'
      (fun p q => p.2.1 ≤ q.1) := by
  rw [adjust_eq]
  constructor
  · intro p hp
    rw [List.mem_filter] at hp
    obtain ⟨hpm, hpc⟩ := hp
    refine ⟨of_decide_eq_true hpc, ?_⟩
    intro hne
    rw [List.mem_map] at hpm
    obtain ⟨rm, _, hrm⟩ := hpm
    rw [← hrm]
    exact find_zero_crossing_lt_length _ _ _ hne
  · have hmapint : ∀ p ∈ L.map (fun rm =>
        (find_zero_crossing audio.samples (audio.time_to_sample rm.start)
            (searchSamplesOf cfg audio),
         find_zero_crossing audio.samples (audio.time_to_sample rm.stop)
            (searchSamplesOf cfg audio), rm)), p.1 ≤ p.2.1 := by
      intro p hp
      rw [List.mem_map] at hp
      obtain ⟨rm, hrmL, hrm⟩ := hp
      rw [← hrm]
      exact find_zero_crossing_mono _ _ (time_to_sample_mono _ (hint rm hrmL))
    have hmapch : (L.map (fun rm =>
        (find_zero_crossing audio.samples (audio.time_to_sample rm.start)
            (searchSamplesOf cfg audio),
         find_zero_crossing audio.samples (audio.time_to_sample rm.stop)
            (searchSamplesOf cfg audio), rm))).Chain'
        (fun p q => p.2.1 ≤ q.1) := by
      rw [List.chain'_map]
      refine hch.imp ?_
      intro a b hab
      exact find_zero_crossing_mono _ _ (time_to_sample_mono _ (le_of_lt hab))
    have hpw := chain_le_pairwise _ hmapint hmapch
    exact (hpw.sublist (List.filter_sublist _)).chain'

/-- The valid (post-filter) removals all satisfy `start ≤ end`. -/
theorem valid_removals_wf (cfg : EditorConfig) (removals : List Removal) :
    ∀ r ∈ removals.filter
      (fun r => decide ((cfg.min_removal_ms : ℚ) / 1000 ≤ r.duration)),
      r.start ≤ r.stop := by
  intro r hr
  rw [List.mem_filter] at hr
  have h1 : (cfg.min_removal_ms : ℚ) / 1000 ≤ r.duration :=
    of_decide_eq_true hr.2
  have h2 : (0 : ℚ) ≤ (cfg.min_removal_ms : ℚ) / 1000 := by positivity
  unfold Removal.duration at h1
  linarith

/-- The re-sort after merging is the identity: the merged list is already
sorted by `start`. -/
theorem reconcile_eq (cfg : EditorConfig) (audio : AudioData)
    (removals : List Removal) :
    Editor.reconcile cfg audio removals =
      Editor.adjust_to_zero_crossings cfg audio
        (Editor.merge_removals cfg
          (removals.filter
            (fun r => decide ((cfg.min_removal_ms : ℚ) / 1000 ≤ r.duration)))) := by
  unfold Editor.reconcile
  dsimp only
  congr 1
  obtain ⟨hint, hch⟩ := merge_removals_good cfg _ (valid_removals_wf cfg removals)
  have hpw := chain_sep_pairwise _ hint hch
  apply List.Sorted.insertionSort_eq
  exact hpw.imp_of_mem (fun ha hb hab =>
    le_trans (hint _ ha) (le_of_lt hab))

/-- The reconciled plan is internally ordered, within bounds, and chained
without overlap. -/
theorem reconcile_good (cfg : EditorConfig) (audio : AudioData)
    (removals : List Removal) :
    (∀ p ∈ Editor.reconcile cfg audio removals,
        p.1 < p.2.1 ∧ (audio.samples ≠ [] → p.2.1 < audio.samples.length)) ∧
    (Editor.reconcile cfg audio removals).Chain' (fun p q => p.2.1 ≤ q.1) := by
  rw [reconcile_eq]
  obtain ⟨hint, hch⟩ := merge_removals_good cfg _ (valid_removals_wf cfg removals)
  exact adjust_good cfg audio _ hint hch

end Reclip

namespace Reclip

theorem sliceQ_length (s : List ℚ) (a b : ℕ) (hb : b ≤ s.length) :
    (sliceQ s a b).length = b - a := by
  unfold sliceQ
  rw [List.length_take, List.length_drop]
  omega

theorem crossfade_le (s1 s2 : List ℚ) (cf : ℕ) :
    (apply_crossfade s1 s2 cf).length ≤ s1.length + s2.length := by
  rw [apply_crossfade_length]
  split <;> omega

theorem foldl_crossfade_le (cf : ℕ) :
    ∀ (rest : List (List ℚ)) (acc : List ℚ),
      (rest.foldl (fun acc seg => apply_crossfade acc seg cf) acc).length
        ≤ acc.length + (rest.map List.length).sum := by
  intro rest
  induction rest with
  | nil => intro acc; simp
  | cons seg rest ih =>
    intro acc
    simp only [List.foldl_cons, List.map_cons, List.sum_cons]
    have h1 := ih (apply_crossfade acc seg cf)
    have h2 := crossfade_le acc seg cf
    omega

/-- Invariant of the kept-segment loop: the collected segment lengths never
exceed the running `last_end`, which stays within the buffer. -/
theorem applyStep_fold_bound (audio : AudioData) :
    ∀ (plan : List (ℕ × ℕ × Removal)) (segs : List (List ℚ))
      (edits : List AppliedEdit) (last_end : ℕ),
      (segs.map List.length).sum ≤ last_end →
      last_end ≤ audio.samples.length →
      (∀ p ∈ plan, p.1 < p.2.1 ∧ p.2.1 ≤ audio.samples.length) →
      plan.Chain' (fun p q => p.2.1 ≤ q.1) →
      (∀ q ts, plan = q :: ts → last_end ≤ q.1) →
      ((plan.foldl (applyStep audio) (segs, edits, last_end)).1.map
          List.length).sum
          ≤ (plan.foldl (applyStep audio) (segs, edits, last_end)).2.2 ∧
        (plan.foldl (applyStep audio) (segs, edits, last_end)).2.2
          ≤ audio.samples.length := by
  intro plan
  induction plan with
  | nil =>
    intro segs edits last_end h1 h2 _ _ _
    exact ⟨h1, h2⟩
  | cons p t ih =>
    intro segs edits last_end h1 h2 h3 h4 h5
    simp only [List.foldl_cons]
    have hp := h3 p (List.mem_cons_self p t)
    have hlep : last_end ≤ p.1 := h5 p t rfl
    show ((t.foldl (applyStep audio) (applyStep audio (segs, edits, last_end) p)).1.map
        List.length).sum ≤ _ ∧ _
    unfold applyStep
    dsimp only
    apply ih
    · by_cases hc : last_end < p.1
      · rw [if_pos hc]
        simp only [List.map_append, List.sum_append, List.map_cons,
          List.sum_cons, List.map_nil, List.sum_nil]
        rw [sliceQ_length _ _ _ (le_trans (le_of_lt hp.1) hp.2)]
        omega
      · rw [if_neg hc]
        omega
    · exact hp.2
    · intro q hq
      exact h3 q (List.mem_cons_of_mem p hq)
    · exact h4.tail
    · intro q ts hq
      rw [hq] at h4
      exact (List.chain'_cons.mp h4).1

/-- The renderer never returns more samples than the input buffer holds,
given a well-formed plan. -/
theorem apply_removals_length_le (cfg : EditorConfig) (audio : AudioData)
    (plan : List (ℕ × ℕ × Removal))
    (hint : ∀ p ∈ plan, p.1 < p.2.1 ∧ p.2.1 ≤ audio.samples.length)
    (hch : plan.Chain' (fun p q => p.2.1 ≤ q.1)) :
    (Editor.apply_removals cfg audio plan).1.samples.length
      ≤ audio.samples.length := by
  unfold Editor.apply_removals
  by_cases hpl : plan = []
  · rw [if_pos hpl]
  · rw [if_neg hpl]
    dsimp only
    obtain ⟨hsum, hle⟩ := applyStep_fold_bound audio plan [] [] 0 (by simp)
      (Nat.zero_le _) hint hch (fun q ts _ => Nat.zero_le _)
    by_cases htr : (plan.foldl (applyStep audio) ([], [], 0)).2.2
        < audio.samples.length
    · rw [if_pos htr]
      cases hseg : (plan.foldl (applyStep audio) ([], [], 0)).1
          ++ [audio.samples.drop (plan.foldl (applyStep audio) ([], [], 0)).2.2] with
      | nil => exact Nat.zero_le _
      | cons s0 rest =>
        dsimp only
        have hfold := foldl_crossfade_le (crossfadeSamplesOf cfg audio) rest s0
        have hsum2 : ((s0 :: rest).map List.length).sum =
            (((plan.foldl (applyStep audio) ([], [], 0)).1).map List.length).sum
              + (audio.samples.length
                  - (plan.foldl (applyStep audio) ([], [], 0)).2.2) := by
          rw [← hseg]
          simp [List.map_append, List.sum_append, List.length_drop]
        simp only [List.map_cons, List.sum_cons] at hsum2
        omega
    · rw [if_neg htr]
      cases hseg : (plan.foldl (applyStep audio) ([], [], 0)).1 with
      | nil => exact Nat.zero_le _
      | cons s0 rest =>
        dsimp only
        have hfold := foldl_crossfade_le (crossfadeSamplesOf cfg audio) rest s0
        have hsum2 : ((s0 :: rest).map List.length).sum =
            (((plan.foldl (applyStep audio) ([], [], 0)).1).map List.length).sum := by
          rw [hseg]
        simp only [List.map_cons, List.sum_cons] at hsum2
        omega

end Reclip

namespace Reclip

/-- On an empty buffer every removal snaps to `(0, 0)` and is discarded, so
the reconciled plan is empty. -/
theorem reconcile_nil_samples (cfg : EditorConfig) (audio : AudioData)
    (removals : List Removal) (hs : audio.samples = []) :
    Editor.reconcile cfg audio removals = [] := by
  rw [reconcile_eq, adjust_eq]
  rw [List.filter_eq_nil_iff]
  intro p hp
  rw [List.mem_map] at hp
  obtain ⟨rm, _, hrm⟩ := hp
  rw [← hrm]
  simp [hs, fzc_nil]

/-- The plan's sample intervals are within bounds, uniformly (an empty
buffer yields an empty plan). -/
theorem reconcile_good' (cfg : EditorConfig) (audio : AudioData)
    (removals : List Removal) :
    (∀ p ∈ Editor.reconcile cfg audio removals,
        p.1 < p.2.1 ∧ p.2.1 < audio.samples.length) ∧
    (Editor.reconcile cfg audio removals).Chain' (fun p q => p.2.1 ≤ q.1) := by
  obtain ⟨hint, hch⟩ := reconcile_good cfg audio removals
  refine ⟨?_, hch⟩
  intro p hp
  by_cases hs : audio.samples = []
  · rw [reconcile_nil_samples cfg audio removals hs] at hp
    simp at hp
  · exact ⟨(hint p hp).1, (hint p hp).2 hs⟩

/-! ## Claim C3: the reconciled plan is valid -/

/-- C3: for every buffer, removal list and config, the reconciled plan
consists of pairwise non-overlapping sample intervals, each with
`endSample > startSample`, all within the buffer's bounds. -/
theorem reconcile_plan_valid (cfg : EditorConfig) (audio : AudioData)
    (removals : List Removal) :
    (Editor.reconcile cfg audio removals).Pairwise (fun p q => p.2.1 ≤ q.1) ∧
    ∀ p ∈ Editor.reconcile cfg audio removals,
      p.1 < p.2.1 ∧ p.2.1 < audio.samples.length := by
  obtain ⟨hint, hch⟩ := reconcile_good' cfg audio removals
  exact ⟨chain_le_pairwise _ (fun p hp => le_of_lt (hint p hp).1) hch, hint⟩

/-! ## Claim C2: render is duration-monotonic -/

/-- C2: for every buffer, removal list and config, the edited buffer of the
render has `editedDuration ≤ originalDuration`. -/
theorem render_duration_monotonic (cfg : EditorConfig) (audio : AudioData)
    (removals : List Removal) :
    (Editor.render cfg audio removals).1.duration ≤ audio.duration := by
  obtain ⟨hint, hch⟩ := reconcile_good' cfg audio removals
  have hlen : (Editor.render cfg audio removals).1.samples.length
      ≤ audio.samples.length := by
    unfold Editor.render
    refine apply_removals_length_le cfg audio _ ?_ hch
    intro p hp
    exact ⟨(hint p hp).1, le_of_lt (hint p hp).2⟩
  have hrate : (Editor.render cfg audio removals).1.sample_rate
      = audio.sample_rate := by
    unfold Editor.render Editor.apply_removals
    split
    · rfl
    · dsimp only
      split <;> rfl
  unfold AudioData.duration
  rw [hrate]
  rcases Nat.eq_zero_or_pos audio.sample_rate with h0 | hpos
  · rw [h0]
    simp
  · have hq : (0 : ℚ) < (audio.sample_rate : ℚ) := by exact_mod_cast hpos
    exact (div_le_div_iff_of_pos_right hq).mpr (by exact_mod_cast hlen)

end Reclip

namespace Reclip

theorem plan_slices_ok_of (n : ℕ) :
    ∀ (plan : List (ℕ × ℕ × Removal)) (last_end : ℕ), last_end ≤ n →
      (∀ p ∈ plan, p.1 ≤ n ∧ p.2.1 ≤ n) →
      plan_slices_ok n last_end plan := by
  intro plan
  induction plan with
  | nil =>
    intro last_end hle _
    exact hle
  | cons p t ih =>
    intro last_end hle h
    refine ⟨fun _ => (h p (List.mem_cons_self p t)).1, ?_⟩
    exact ih p.2.1 (h p (List.mem_cons_self p t)).2
      (fun q hq => h q (List.mem_cons_of_mem p hq))

/-! ## Claim C9: rendering never indexes out of range -/

/-- C9: for a non-empty buffer, every start/end index of the snapped plan is
strictly below `samples.len()`, and every slice `apply_removals` takes —
each kept `samples[last_end..start]` (taken only when `start > last_end`)
and the trailing `samples[last_end..]` — stays within bounds when replayed
with the plan's running `last_end`. -/
theorem render_indexing_safe (cfg : EditorConfig) (audio : AudioData)
    (removals : List Removal) (h : audio.samples ≠ []) :
    (∀ p ∈ Editor.reconcile cfg audio removals,
        p.1 < audio.samples.length ∧ p.2.1 < audio.samples.length) ∧
    plan_slices_ok audio.samples.length 0
      (Editor.reconcile cfg audio removals) := by
  obtain ⟨hint, hch⟩ := reconcile_good' cfg audio removals
  constructor
  · intro p hp
    exact ⟨lt_trans (hint p hp).1 (hint p hp).2, (hint p hp).2⟩
  · exact plan_slices_ok_of _ _ 0 (Nat.zero_le _)
      (fun p hp => ⟨le_of_lt (lt_trans (hint p hp).1 (hint p hp).2),
        le_of_lt (hint p hp).2⟩)

/-- Witness for C9 at a concrete non-empty buffer. -/
theorem render_indexing_safe_witness :
    (∀ p ∈ Editor.reconcile EditorConfig.default ⟨[(1 : ℚ)], 1⟩ [],
        p.1 < (AudioData.mk [(1 : ℚ)] 1).samples.length ∧
        p.2.1 < (AudioData.mk [(1 : ℚ)] 1).samples.length) ∧
    plan_slices_ok (AudioData.mk [(1 : ℚ)] 1).samples.length 0
      (Editor.reconcile EditorConfig.default ⟨[(1 : ℚ)], 1⟩ []) :=
  render_indexing_safe EditorConfig.default ⟨[1], 1⟩ [] (by simp)

end Reclip
